import Mathlib

/-!
# Verification of the zipzap ranking/storage engine

A shallow embedding of the core logic of `src/main.rs` (the `zipzap`
directory-jump tool).  The persisted SQLite table

    CREATE TABLE zipzap (path TEXT PRIMARY KEY, rank REAL NOT NULL, time INTEGER NOT NULL)

is modelled as a list of entries; SQLite `REAL` arithmetic is idealized as
exact rational arithmetic (`ℚ`), and `INTEGER` timestamps as `ℤ` (64-bit
overflow is not modelled).  Rust's Unicode `to_lowercase` is modelled by
Lean's ASCII `String.toLower`, which also coincides with SQLite's ASCII-only
case folding used by `LIKE`.
-/

namespace Zipzap

/-- Model of Rust's `str::to_lowercase` (restricted to ASCII, which also
matches SQLite's `LIKE` case folding): lowercase every character. -/
def lowercase (s : String) : String := ⟨s.data.map Char.toLower⟩

/-- One row of the `zipzap` table: `(path TEXT PRIMARY KEY, rank REAL, time INTEGER)`. -/
structure Entry where
  path : String
  rank : ℚ
  time : ℤ
deriving DecidableEq, Repr

/-- The table, as a list of rows.  The SQL `PRIMARY KEY` constraint keeps the
`path` column duplicate-free; statements that depend on that uniqueness carry
an explicit `KeysNodup` hypothesis. -/
abbrev Store := List Entry

/-- The row for key `p`, if any (models a `SELECT ... WHERE path = p`). -/
def lookupEntry (st : Store) (p : String) : Option Entry :=
  st.find? (fun e => e.path == p)

/-- The `PRIMARY KEY` uniqueness invariant of the real table. -/
def KeysNodup (st : Store) : Prop := (st.map Entry.path).Nodup

/-- `SELECT SUM(rank) FROM zipzap` (0 for the empty table). -/
def totalRank (st : Store) : ℚ := (st.map Entry.rank).sum

/-! ## The `Add` command (`record_visit`), main.rs lines 112-141 -/

/-- The upsert of `Command::Add`:

    INSERT INTO zipzap (path, rank, time) VALUES (:path, 1, :now)
    ON CONFLICT(path) DO UPDATE SET rank = rank + 1, time = :now;

with `:path` bound to the lowercased path (main.rs line 129). -/
def upsertVisit (st : Store) (path : String) (now : ℤ) : Store :=
  let key := lowercase path
  if st.any (fun e => e.path == key) then
    st.map (fun e => if e.path == key then { e with rank := e.rank + 1, time := now } else e)
  else
    st ++ [⟨key, 1, now⟩]

/-- The aging pass (main.rs lines 133-140): if `SUM(rank) >= 9000.0`, run
`UPDATE zipzap SET rank = rank * 0.99;`. -/
def agingPass (st : Store) : Store :=
  if totalRank st ≥ 9000 then
    st.map (fun e => { e with rank := e.rank * 0.99 })
  else st

/-- The whole store mutation of `Command::Add` after path filtering:
upsert, then the conditional aging pass. -/
def recordVisit (st : Store) (path : String) (now : ℤ) : Store :=
  agingPass (upsertVisit st path now)

/-- `camino` component count of a canonicalized absolute Unix path: the root
`/` plus one component per non-empty segment ( `/` has count 1, `/a/b` has
count 3 ). -/
def componentsCount (path : String) : ℕ :=
  1 + ((path.data.splitOn '/').filter (fun s => !s.isEmpty)).length

/-- The full `Command::Add` handler (main.rs lines 112-141), taking the
already-canonicalized path and the home directory: home and root directories
are ignored (lines 119-121), otherwise the visit is recorded. -/
def addCommand (home : String) (st : Store) (path : String) (now : ℤ) : Store :=
  if path == home || componentsCount path == 1 then st
  else recordVisit st path now

/-! ## The frecency scorer, main.rs line 205 -/

/-- The `ORDER BY` expression of `Command::Find`:
`rank * (3.75/((0.0001 * (now - time) + 1) + 0.25))`, as a function of the
rank and the age `now - time`. -/
def score (rank age : ℚ) : ℚ :=
  rank * (3.75 / ((0.0001 * age + 1) + 0.25))

/-! ## The `Find` command, main.rs lines 190-212 -/

/-- SQLite `LIKE` matching (`%` matches any sequence, `_` any single
character).  SQLite folds ASCII case before comparing; we model that by
matching the lowercased pattern against the lowercased string, so character
comparison here is plain equality. -/
def likeM (p s : List Char) : Bool :=
  match p with
  | [] => s.isEmpty
  | c :: ps =>
    if c = '%' then
      likeM ps s ||
        (match s with
         | [] => false
         | _ :: s' => likeM (c :: ps) s')
    else
      match s with
      | [] => false
      | d :: s' => (c == '_' || c == d) && likeM ps s'
termination_by (p.length, s.length)

/-- The pattern built by `Command::Find` (main.rs lines 195-200):
start empty, append `"%"` and the lowercased token for each token, then a
final `"%"`; so the pattern is `%t1%t2%...%tn%`. -/
def buildPattern (tokens : List String) : List Char :=
  (tokens.foldl (fun pat p => pat ++ ('%' :: (lowercase p).data)) []) ++ ['%']

/-- Recursive form of `buildPattern`, on already-lowercased tokens. -/
def patAux : List (List Char) → List Char
  | [] => ['%']
  | t :: ts => '%' :: (t ++ patAux ts)

/-- The specification's reading of the pattern: the string contains every
token, in the given order, as substrings separated by anything. -/
def ContainsInOrder : List (List Char) → List Char → Prop
  | [], _ => True
  | t :: ts, s => ∃ pre suf, s = pre ++ t ++ suf ∧ ContainsInOrder ts suf

/-- The candidate with the greater frecency score (`ORDER BY ... DESC`
keeps the maximum; the tie-break is left to SQLite's iteration order and is
modelled as keeping the earlier row). -/
def betterOf (now : ℤ) (a b : Entry) : Entry :=
  if score a.rank (now - a.time) < score b.rank (now - b.time) then b else a

/-- `Command::Find` (main.rs lines 190-212): empty pattern list returns
without a match; otherwise the rows matching the `LIKE` pattern are ranked
by frecency and the best is returned.  `none` models both the early return
and the `QueryReturnedNoRows` error. -/
def findBest (st : Store) (tokens : List String) (now : ℤ) : Option String :=
  if tokens.isEmpty then none
  else
    match st.filter (fun e => likeM (buildPattern tokens) (lowercase e.path).data) with
    | [] => none
    | e :: es => some ((es.foldl (betterOf now) e).path)

/-! ## The `Db Import` command, main.rs lines 142-183 -/

/-- Errors raised while parsing one line of the `.z` file.  The code's
"missing path in ..." error is dead code — `split('|')` always yields at
least one field — so it has no constructor here. -/
inductive ImportError where
  | missingRank (line : String)
  | missingTime (line : String)
  | badRank (line : String)
  | badTime (line : String)
deriving DecidableEq, Repr

/-- Value of a digit string, most significant first. -/
def digitsToNat (cs : List Char) : ℕ :=
  cs.foldl (fun n c => 10 * n + (c.toNat - '0'.toNat)) 0

/-- Models Rust `i64::from_str`: an optional sign followed by at least one
digit (64-bit overflow is not modelled). -/
def parseIntStr (s : String) : Option ℤ :=
  let (neg, ds) :=
    match s.data with
    | '-' :: r => (true, r)
    | '+' :: r => (false, r)
    | r => (false, r)
  if !ds.isEmpty && ds.all Char.isDigit then
    some (if neg then -(digitsToNat ds : ℤ) else (digitsToNat ds : ℤ))
  else none

/-- Models Rust `f64::from_str` on plain decimal literals: an optional sign,
then digits with at most one decimal point and at least one digit overall
(`5`, `5.`, `.5` parse; `.`, `""`, `a` do not).  Exponents, `inf` and `NaN`
are not modelled, and the value is idealized as an exact rational. -/
def parseRatStr (s : String) : Option ℚ :=
  let (neg, ds) :=
    match s.data with
    | '-' :: r => (true, r)
    | '+' :: r => (false, r)
    | r => (false, r)
  let signed : ℚ → ℚ := fun v => if neg then -v else v
  match ds.splitOn '.' with
  | [ip] =>
    if !ip.isEmpty && ip.all Char.isDigit then
      some (signed (digitsToNat ip : ℚ))
    else none
  | [ip, fp] =>
    if (!ip.isEmpty || !fp.isEmpty) && ip.all Char.isDigit && fp.all Char.isDigit then
      some (signed ((digitsToNat ip : ℚ) + (digitsToNat fp : ℚ) / 10 ^ fp.length))
    else none
  | _ => none

/-- Parsing one line of the `.z` file (main.rs lines 163-176):
`path|rank|time`, the path lowercased, extra fields ignored. -/
def parseLine (line : String) : Except ImportError (String × ℚ × ℤ) :=
  let fields := (line.data.splitOn '|').map (fun cs => (⟨cs⟩ : String))
  let path := lowercase (fields.headD "")
  match fields[1]? with
  | none => .error (.missingRank line)
  | some rankStr =>
    match parseRatStr rankStr with
    | none => .error (.badRank line)
    | some rank =>
      match fields[2]? with
      | none => .error (.missingTime line)
      | some time =>
        match parseIntStr time with
        | none => .error (.badTime line)
        | some t => .ok (path, rank, t)

/-- The per-record statement of the import (main.rs lines 153-161):

    INSERT INTO zipzap (path, rank, time) VALUES (?, ?, ?)
    ON CONFLICT (path) DO UPDATE SET rank = excluded.rank, time = excluded.time
    WHERE excluded.time > zipzap.time;
-/
def importRecord (st : Store) (p : String) (r : ℚ) (t : ℤ) : Store :=
  if st.any (fun e => e.path == p) then
    st.map (fun e => if e.path = p ∧ e.time < t then ⟨e.path, r, t⟩ else e)
  else
    st ++ [⟨p, r, t⟩]

/-- The import loop (main.rs lines 163-179): parse each line in order,
aborting on the first parse error, and apply `importRecord` for each parsed
record, counting the rows. -/
def importLines (lines : List String) (st : Store) (n : ℕ) :
    Except ImportError (Store × ℕ) :=
  match lines with
  | [] => .ok (st, n)
  | l :: ls =>
    match parseLine l with
    | .error e => .error e
    | .ok (p, r, t) => importLines ls (importRecord st p r t) (n + 1)

/-- The whole `DbCommand::Import` against a store: the loop runs inside a
transaction (main.rs lines 150, 181), so an error means the transaction is
dropped without commit and the store is unchanged (`none` row count). -/
def runImport (lines : List String) (st : Store) : Store × Option ℕ :=
  match importLines lines st 0 with
  | .ok (st', n) => (st', some n)
  | .error _ => (st, none)

/-! ## Reachable states -/

/-- States reachable from the empty table by `Add` upserts and by
successful imports. -/
inductive Reachable : Store → Prop where
  | init : Reachable []
  | visit (st : Store) (p : String) (now : ℤ) :
      Reachable st → Reachable (recordVisit st p now)
  | imp (st st' : Store) (lines : List String) (n : ℕ) :
      importLines lines st 0 = .ok (st', n) →
      Reachable st → Reachable st'

/-- Reachability restricted to imports whose records all carry a
non-negative rank. -/
inductive ReachableNN : Store → Prop where
  | init : ReachableNN []
  | visit (st : Store) (p : String) (now : ℤ) :
      ReachableNN st → ReachableNN (recordVisit st p now)
  | imp (st st' : Store) (lines : List String) (n : ℕ) :
      (∀ l ∈ lines, ∀ p r t, parseLine l = .ok (p, r, t) → 0 ≤ r) →
      importLines lines st 0 = .ok (st', n) →
      ReachableNN st → ReachableNN st'

/-! ## Helper lemmas -/

lemma lookupEntry_eq_none_iff (st : Store) (p : String) :
    lookupEntry st p = none ↔ st.any (fun e => e.path == p) = false := by
  simp [lookupEntry, List.find?_eq_none, List.any_eq_false]

lemma lookupEntry_mem_of_some {st : Store} {p : String} {e : Entry}
    (h : lookupEntry st p = some e) : e ∈ st ∧ e.path = p := by
  refine ⟨List.mem_of_find?_eq_some h, ?_⟩
  have := List.find?_some h
  simpa using this

lemma map_eq_self_of_forall {l : List Entry} {f : Entry → Entry}
    (h : ∀ a ∈ l, f a = a) : l.map f = l :=
  (List.map_congr_left h).trans l.map_id

/-- Looking up in a store mapped by a pathwise-identity-outside-`k`,
path-preserving update: other keys are untouched and key `k`'s row is
updated in place. -/
lemma lookup_map_update (st : Store) (k : String) (g : Entry → Entry)
    (hpath : ∀ e, (g e).path = e.path)
    (hskip : ∀ e, e.path ≠ k → g e = e) :
    (∀ q, q ≠ k → lookupEntry (st.map g) q = lookupEntry st q) ∧
    lookupEntry (st.map g) k = (lookupEntry st k).map g := by
  induction st with
  | nil => simp [lookupEntry]
  | cons e es ih =>
    constructor
    · intro q hq
      by_cases hcase : e.path = q
      · have h1 : ((g e).path == q) = true := by simp [hpath, hcase]
        have h2 : (e.path == q) = true := by simp [hcase]
        have hge : g e = e := hskip e (by rw [hcase]; exact hq)
        simp [lookupEntry, List.find?, h1, h2, hge]
      · have h1 : ((g e).path == q) = false := by simp [hpath, hcase]
        have h2 : (e.path == q) = false := by simp [hcase]
        simpa [lookupEntry, List.find?, h1, h2] using ih.1 q hq
    · by_cases hcase : e.path = k
      · have h1 : ((g e).path == k) = true := by simp [hpath, hcase]
        have h2 : (e.path == k) = true := by simp [hcase]
        simp [lookupEntry, List.find?, h1, h2]
      · have h1 : ((g e).path == k) = false := by simp [hpath, hcase]
        have h2 : (e.path == k) = false := by simp [hcase]
        simpa [lookupEntry, List.find?, h1, h2] using ih.2

/-! ## Claims C1-C3 -/

/-- C1: `record_visit` (the `Add` upsert): for every path, if no entry for
the normalized (lowercased) path exists, the operation creates one with
`rank = 1.0` and `last_access = now`; if an entry exists, it sets its rank
to the old value plus 1.0 and `last_access = now`, leaving the path key
unchanged (and every other key's row untouched). -/
theorem record_visit_upsert (st : Store) (path : String) (now : ℤ) :
    (lookupEntry st (lowercase path) = none →
      upsertVisit st path now = st ++ [⟨(lowercase path), 1, now⟩]) ∧
    (∀ e, lookupEntry st (lowercase path) = some e →
      e.path = (lowercase path) ∧
      lookupEntry (upsertVisit st path now) (lowercase path)
        = some ⟨e.path, e.rank + 1, now⟩ ∧
      ∀ q, q ≠ (lowercase path) →
        lookupEntry (upsertVisit st path now) q = lookupEntry st q) := by
  constructor
  · intro h
    have hany := (lookupEntry_eq_none_iff st (lowercase path)).mp h
    simp only [upsertVisit, hany]
    simp
  · intro e he
    obtain ⟨hmem, hpe⟩ := lookupEntry_mem_of_some he
    have hany : st.any (fun x => x.path == (lowercase path)) = true :=
      List.any_eq_true.mpr ⟨e, hmem, by simp [hpe]⟩
    have hup : upsertVisit st path now
        = st.map (fun x => if x.path == (lowercase path) then
            { x with rank := x.rank + 1, time := now } else x) := by
      simp only [upsertVisit, hany]; simp
    have hmap := lookup_map_update st (lowercase path)
        (fun x => if x.path == (lowercase path) then
            { x with rank := x.rank + 1, time := now } else x)
        (by intro x; dsimp only; split <;> rfl)
        (by intro x hx; simp [hx])
    refine ⟨hpe, ?_, ?_⟩
    · rw [hup, hmap.2, he]
      simp [hpe]
    · intro q hq
      rw [hup, hmap.1 q hq]

/-- Witness for C1 at concrete inputs: a fresh path is inserted with rank 1,
an existing one is bumped to rank 2 with the new timestamp. -/
theorem record_visit_upsert_witness :
    upsertVisit [] "/A/B" 7 = [] ++ [⟨lowercase "/A/B", 1, 7⟩] ∧
    lookupEntry (upsertVisit [⟨"/a/b", 1, 0⟩] "/A/B" 7) (lowercase "/A/B")
      = some ⟨"/a/b", (1 : ℚ) + 1, 7⟩ := by
  refine ⟨(record_visit_upsert [] "/A/B" 7).1 rfl, ?_⟩
  exact ((record_visit_upsert [⟨"/a/b", 1, 0⟩] "/A/B" 7).2
    ⟨"/a/b", 1, 0⟩ rfl).2.1

/-- C2: after every `record_visit` upsert, the aging pass fires if and only
if the sum of ranks is at least 9000.0, and when it fires it multiplies
every entry's rank by exactly 0.99, touching no other field. -/
theorem aging_pass_threshold (st : Store) (path : String) (now : ℤ) :
    (totalRank (upsertVisit st path now) < 9000 →
      recordVisit st path now = upsertVisit st path now) ∧
    (9000 ≤ totalRank (upsertVisit st path now) →
      recordVisit st path now
        = (upsertVisit st path now).map
            (fun e => ⟨e.path, e.rank * 0.99, e.time⟩)) := by
  constructor
  · intro h
    simp [recordVisit, agingPass, not_le.mpr h]
  · intro h
    simp only [recordVisit, agingPass, ge_iff_le, if_pos h]

/-- Witness for C2 at the boundary: a total rank of exactly 9000 fires the
pass (every rank is multiplied by 0.99), a total of 8999.999 does not. -/
theorem aging_pass_threshold_witness :
    recordVisit [⟨"/x", 8999, 0⟩] "/b" 5
      = (upsertVisit [⟨"/x", 8999, 0⟩] "/b" 5).map
          (fun e => ⟨e.path, e.rank * 0.99, e.time⟩) ∧
    recordVisit [⟨"/x", 8998999/1000, 0⟩] "/b" 5
      = upsertVisit [⟨"/x", 8998999/1000, 0⟩] "/b" 5 := by
  have h1 : upsertVisit [(⟨"/x", 8999, 0⟩ : Entry)] "/b" 5
      = [⟨"/x", 8999, 0⟩, ⟨"/b", 1, 5⟩] := rfl
  have h2 : upsertVisit [(⟨"/x", 8998999/1000, 0⟩ : Entry)] "/b" 5
      = [⟨"/x", 8998999/1000, 0⟩, ⟨"/b", 1, 5⟩] := rfl
  constructor
  · apply (aging_pass_threshold [⟨"/x", 8999, 0⟩] "/b" 5).2
    rw [h1]
    show (9000 : ℚ) ≤ totalRank _
    simp only [totalRank, List.map_cons, List.map_nil, List.sum_cons, List.sum_nil]
    norm_num
  · apply (aging_pass_threshold [⟨"/x", 8998999/1000, 0⟩] "/b" 5).1
    rw [h2]
    show totalRank _ < (9000 : ℚ)
    simp only [totalRank, List.map_cons, List.map_nil, List.sum_cons, List.sum_nil]
    norm_num

/-- C3: the frecency score used to order `find_best` candidates equals
`rank * (3.75 / (0.0001 * age + 1 + 0.25))` for `age = now - last_access`
(both as exact rationals and after casting to the reals idealizing `f64`),
is bounded above by `15 * rank` at `age = 0` for non-negative rank, and
tends to 0 as the age tends to infinity. -/
theorem frecency_score_shape :
    (∀ rank age : ℚ, score rank age = rank * (3.75 / (0.0001 * age + 1 + 0.25))) ∧
    (∀ rank : ℚ, 0 ≤ rank → score rank 0 ≤ 15 * rank) ∧
    (∀ rank age : ℚ, ((score rank age : ℚ) : ℝ)
        = (rank : ℝ) * (3.75 / (0.0001 * (age : ℝ) + 1 + 0.25))) ∧
    (∀ rank : ℚ, Filter.Tendsto
        (fun age : ℝ => (rank : ℝ) * (3.75 / (0.0001 * age + 1 + 0.25)))
        Filter.atTop (nhds 0)) := by
  refine ⟨fun rank age => rfl, ?_, ?_, ?_⟩
  · intro rank h
    have hs : score rank 0 = rank * 3 := by
      unfold score; norm_num
    rw [hs]; linarith
  · intro rank age
    unfold score
    push_cast
    norm_num
  · intro rank
    have hden : Filter.Tendsto (fun age : ℝ => 0.0001 * age + 1 + 0.25)
        Filter.atTop Filter.atTop := by
      apply Filter.tendsto_atTop_add_const_right
      apply Filter.tendsto_atTop_add_const_right
      exact Filter.Tendsto.const_mul_atTop (by norm_num) Filter.tendsto_id
    have hfrac : Filter.Tendsto (fun age : ℝ => 3.75 / (0.0001 * age + 1 + 0.25))
        Filter.atTop (nhds 0) :=
      Filter.Tendsto.div_atTop tendsto_const_nhds hden
    have := hfrac.const_mul ((rank : ℝ))
    simpa using this

/-- Witness for C3's bounded-at-age-0 part at `rank = 2`. -/
theorem frecency_score_shape_witness :
    (0 : ℚ) ≤ 2 ∧ score 2 0 ≤ 15 * 2 :=
  ⟨by norm_num, frecency_score_shape.2.1 2 (by norm_num)⟩

/-! ## Claims C5, C6, C10 -/

lemma eq_of_mem_keysNodup {st : Store} (h : KeysNodup st) {a b : Entry}
    (ha : a ∈ st) (hb : b ∈ st) (hab : a.path = b.path) : a = b :=
  List.inj_on_of_nodup_map h ha hb hab

/-- C5: a non-clear import record with an existing entry overwrites its rank
and last-access iff the incoming timestamp is strictly newer; a tie or older
timestamp leaves the whole table untouched with no error; an absent path is
inserted fresh. -/
theorem import_merge_policy (st : Store) (p : String) (r : ℚ) (t : ℤ) :
    (lookupEntry st p = none → importRecord st p r t = st ++ [⟨p, r, t⟩]) ∧
    (∀ e, lookupEntry st p = some e → e.time < t →
      lookupEntry (importRecord st p r t) p = some ⟨p, r, t⟩ ∧
      ∀ q, q ≠ p → lookupEntry (importRecord st p r t) q = lookupEntry st q) ∧
    (∀ e, KeysNodup st → lookupEntry st p = some e → t ≤ e.time →
      importRecord st p r t = st) := by
  refine ⟨?_, ?_, ?_⟩
  · intro h
    have hany := (lookupEntry_eq_none_iff st p).mp h
    simp only [importRecord, hany]
    simp
  · intro e he ht
    obtain ⟨hmem, hpe⟩ := lookupEntry_mem_of_some he
    have hany : st.any (fun x => x.path == p) = true :=
      List.any_eq_true.mpr ⟨e, hmem, by simp [hpe]⟩
    have hrec : importRecord st p r t
        = st.map (fun x => if x.path = p ∧ x.time < t then ⟨x.path, r, t⟩ else x) := by
      simp only [importRecord, hany]; simp
    have hmap := lookup_map_update st p
        (fun x => if x.path = p ∧ x.time < t then ⟨x.path, r, t⟩ else x)
        (by intro x; dsimp only; split <;> rfl)
        (by intro x hx; simp [hx])
    constructor
    · rw [hrec, hmap.2, he]
      simp [hpe, ht]
    · intro q hq
      rw [hrec, hmap.1 q hq]
  · intro e hnd he ht
    obtain ⟨hmem, hpe⟩ := lookupEntry_mem_of_some he
    have hany : st.any (fun x => x.path == p) = true :=
      List.any_eq_true.mpr ⟨e, hmem, by simp [hpe]⟩
    have hrec : importRecord st p r t
        = st.map (fun x => if x.path = p ∧ x.time < t then ⟨x.path, r, t⟩ else x) := by
      simp only [importRecord, hany]; simp
    rw [hrec]
    apply map_eq_self_of_forall
    intro a ha
    by_cases hap : a.path = p
    · have : a = e := eq_of_mem_keysNodup hnd ha hmem (hap.trans hpe.symm)
      subst this
      simp [not_lt.mpr ht]
    · simp [hap]

/-- Witness for C5, following the spec's §8 example: a fresh path is
inserted; `rank=5, time=100` is overwritten by an incoming `time=200` record
but survives incoming `time=50` untouched. -/
theorem import_merge_policy_witness :
    importRecord [⟨"/x/y", 5, 100⟩] "/y/z" 2 50 = [⟨"/x/y", 5, 100⟩] ++ [⟨"/y/z", 2, 50⟩] ∧
    lookupEntry (importRecord [⟨"/x/y", 5, 100⟩] "/x/y" 2 200) "/x/y"
      = some ⟨"/x/y", 2, 200⟩ ∧
    importRecord [⟨"/x/y", 5, 100⟩] "/x/y" 2 50 = [⟨"/x/y", 5, 100⟩] :=
  ⟨(import_merge_policy [⟨"/x/y", 5, 100⟩] "/y/z" 2 50).1 rfl,
    ((import_merge_policy [⟨"/x/y", 5, 100⟩] "/x/y" 2 200).2.1
      ⟨"/x/y", 5, 100⟩ rfl (by norm_num)).1,
    (import_merge_policy [⟨"/x/y", 5, 100⟩] "/x/y" 2 50).2.2
      ⟨"/x/y", 5, 100⟩ (by simp [KeysNodup]) rfl (by norm_num)⟩

lemma importLines_error_of_bad_line {lines : List String} {l : String}
    {err : ImportError} (hl : l ∈ lines) (he : parseLine l = .error err) :
    ∀ st n, ∃ e, importLines lines st n = .error e := by
  induction lines with
  | nil => cases hl
  | cons l0 ls ih =>
    intro st n
    rcases List.mem_cons.mp hl with h | h
    · subst h
      exact ⟨err, by simp [importLines, he]⟩
    · cases hp : parseLine l0 with
      | error e0 => exact ⟨e0, by simp [importLines, hp]⟩
      | ok v =>
        obtain ⟨p, r, t⟩ := v
        obtain ⟨e, hE⟩ := ih h (importRecord st p r t) (n + 1)
        exact ⟨e, by simp [importLines, hp, hE]⟩

/-- C6: if any line of the import payload fails to parse, the whole import
fails and the store is left exactly as before the call, with no row count
reported (the transaction is rolled back). -/
theorem import_atomic_on_parse_error (lines : List String) (st : Store)
    (h : ∃ l ∈ lines, ∃ err, parseLine l = .error err) :
    (runImport lines st).1 = st ∧ (runImport lines st).2 = none := by
  obtain ⟨l, hl, err, he⟩ := h
  obtain ⟨e, hE⟩ := importLines_error_of_bad_line hl he st 0
  simp [runImport, hE]

/-- Witness for C6: a malformed second line aborts the import and the first,
well-formed line is not committed. -/
theorem import_atomic_on_parse_error_witness :
    (runImport ["/a|1|2", "bogus"] [⟨"/q", 5, 9⟩]).1 = [⟨"/q", 5, 9⟩] ∧
    (runImport ["/a|1|2", "bogus"] [⟨"/q", 5, 9⟩]).2 = none :=
  import_atomic_on_parse_error ["/a|1|2", "bogus"] [⟨"/q", 5, 9⟩]
    ⟨"bogus", by simp, ⟨.missingRank "bogus", rfl⟩⟩

/-- C10: an empty line in the import payload parses to a missing-rank error
(it is not skipped as a non-record), so the import call fails and commits
nothing. -/
theorem empty_line_fails_import (lines : List String) (st : Store)
    (h : "" ∈ lines) :
    parseLine "" = .error (.missingRank "") ∧
    (runImport lines st).1 = st ∧ (runImport lines st).2 = none := by
  obtain ⟨e, hE⟩ := importLines_error_of_bad_line h rfl st 0
  exact ⟨rfl, by simp [runImport, hE]⟩

/-- Witness for C10: a payload of an empty line plus a well-formed line
commits nothing. -/
theorem empty_line_fails_import_witness :
    parseLine "" = .error (.missingRank "") ∧
    (runImport ["", "/a|1|2"] [⟨"/q", 5, 9⟩]).1 = [⟨"/q", 5, 9⟩] ∧
    (runImport ["", "/a|1|2"] [⟨"/q", 5, 9⟩]).2 = none :=
  empty_line_fails_import ["", "/a|1|2"] [⟨"/q", 5, 9⟩] (by simp)

/-! ## Claim C7: import idempotence -/

/-- `st` has an entry for `p`, and every entry at `p` has time at least `t`.
A record `(p, r, t)` is a no-op exactly in this situation. -/
def EntryCeil (st : Store) (p : String) (t : ℤ) : Prop :=
  st.any (fun e => e.path == p) = true ∧ ∀ e ∈ st, e.path = p → t ≤ e.time

lemma importRecord_skip {st : Store} {p : String} {r : ℚ} {t : ℤ}
    (h : EntryCeil st p t) : importRecord st p r t = st := by
  obtain ⟨hany, hceil⟩ := h
  simp only [importRecord, hany, if_true]
  apply map_eq_self_of_forall
  intro a ha
  by_cases hap : a.path = p
  · simp [hap, not_lt.mpr (hceil a ha hap)]
  · simp [hap]

lemma importRecord_estab (st : Store) (p : String) (r : ℚ) (t : ℤ) :
    EntryCeil (importRecord st p r t) p t := by
  by_cases hany : st.any (fun e => e.path == p) = true
  · obtain ⟨e, hmem, hpe⟩ := List.any_eq_true.mp hany
    have hpe' : e.path = p := by simpa using hpe
    simp only [importRecord, hany, if_true]
    constructor
    · refine List.any_eq_true.mpr ⟨_, List.mem_map_of_mem _ hmem, ?_⟩
      by_cases hc : e.path = p ∧ e.time < t
      · simp only [if_pos hc]
        simp [hpe']
      · simp only [if_neg hc]
        simp [hpe']
    · intro x hx hxp
      obtain ⟨a, hamem, rfl⟩ := List.mem_map.mp hx
      by_cases hc : a.path = p ∧ a.time < t
      · simp only [if_pos hc]
        exact le_refl t
      · simp only [if_neg hc] at hxp ⊢
        have : ¬ a.time < t := fun hlt => hc ⟨hxp, hlt⟩
        omega
  · have hany' : st.any (fun e => e.path == p) = false := by simpa using hany
    rw [importRecord, if_neg (by simp [hany'])]
    constructor
    · exact List.any_eq_true.mpr ⟨⟨p, r, t⟩, by simp, by simp⟩
    · intro x hx hxp
      rcases List.mem_append.mp hx with hmem | hmem
      · have := List.any_eq_false.mp hany' x hmem
        simp [hxp] at this
      · simp only [List.mem_singleton] at hmem
        subst hmem
        exact le_refl t

lemma importRecord_preserve {st : Store} {p : String} {t : ℤ}
    (h : EntryCeil st p t) (p' : String) (r' : ℚ) (t' : ℤ) :
    EntryCeil (importRecord st p' r' t') p t := by
  obtain ⟨hany, hceil⟩ := h
  obtain ⟨e, hmem, hpe⟩ := List.any_eq_true.mp hany
  have hpe' : e.path = p := by simpa using hpe
  by_cases hany' : st.any (fun x => x.path == p') = true
  · simp only [importRecord, hany', if_true]
    constructor
    · refine List.any_eq_true.mpr ⟨_, List.mem_map_of_mem _ hmem, ?_⟩
      by_cases hc : e.path = p' ∧ e.time < t'
      · simp only [if_pos hc]
        simp [hpe']
      · simp only [if_neg hc]
        simp [hpe']
    · intro x hx hxp
      obtain ⟨a, hamem, rfl⟩ := List.mem_map.mp hx
      by_cases hc : a.path = p' ∧ a.time < t'
      · simp only [if_pos hc] at hxp ⊢
        have hap : a.path = p := hxp
        have hat : t ≤ a.time := hceil a hamem hap
        show t ≤ t'
        have := hc.2
        omega
      · simp only [if_neg hc] at hxp ⊢
        exact hceil a hamem hxp
  · have hne : ¬ p' = p := by
      intro hpp
      exact hany' (List.any_eq_true.mpr ⟨e, hmem, by simp [hpe', hpp]⟩)
    have hany'' : st.any (fun x => x.path == p') = false := by simpa using hany'
    rw [importRecord, if_neg (by simp [hany''])]
    constructor
    · exact List.any_eq_true.mpr ⟨e, List.mem_append_left _ hmem, by simp [hpe']⟩
    · intro x hx hxp
      rcases List.mem_append.mp hx with hmem' | hmem'
      · exact hceil x hmem' hxp
      · simp only [List.mem_singleton] at hmem'
        subst hmem'
        exact absurd hxp hne

lemma importLines_preserve_ceil {lines : List String} {st st' : Store} {n n' : ℕ}
    (h : importLines lines st n = .ok (st', n')) {p : String} {t : ℤ}
    (hc : EntryCeil st p t) : EntryCeil st' p t := by
  induction lines generalizing st n with
  | nil =>
    simp only [importLines, Except.ok.injEq, Prod.mk.injEq] at h
    exact h.1 ▸ hc
  | cons l ls ih =>
    cases hp : parseLine l with
    | error e => simp [importLines, hp] at h
    | ok v =>
      obtain ⟨q, r, u⟩ := v
      simp only [importLines, hp] at h
      exact ih h (importRecord_preserve hc q r u)

lemma importLines_ok_shape {lines : List String} {st st' : Store} {n n' : ℕ}
    (h : importLines lines st n = .ok (st', n')) :
    n' = n + lines.length ∧
    ∀ l ∈ lines, ∃ p r t, parseLine l = .ok (p, r, t) ∧ EntryCeil st' p t := by
  induction lines generalizing st n with
  | nil =>
    simp only [importLines, Except.ok.injEq, Prod.mk.injEq] at h
    simp [h.2]
  | cons l ls ih =>
    cases hp : parseLine l with
    | error e => simp [importLines, hp] at h
    | ok v =>
      obtain ⟨p, r, t⟩ := v
      simp only [importLines, hp] at h
      obtain ⟨hn, hall⟩ := ih h
      refine ⟨by simp only [List.length_cons, hn]; omega, ?_⟩
      intro l' hl'
      rcases List.mem_cons.mp hl' with hl' | hl'
      · subst hl'
        exact ⟨p, r, t, hp,
          importLines_preserve_ceil h (importRecord_estab st p r t)⟩
      · exact hall l' hl'

lemma importLines_replay (lines : List String) (st : Store) :
    ∀ n : ℕ,
    (∀ l ∈ lines, ∃ p r t, parseLine l = .ok (p, r, t) ∧ EntryCeil st p t) →
    importLines lines st n = .ok (st, n + lines.length) := by
  induction lines with
  | nil => intro n _; simp [importLines]
  | cons l ls ih =>
    intro n h
    obtain ⟨p, r, t, hp, hc⟩ := h l (List.mem_cons_self l ls)
    have hrest : ∀ l' ∈ ls, ∃ p r t, parseLine l' = .ok (p, r, t) ∧ EntryCeil st p t :=
      fun l' hl' => h l' (List.mem_cons_of_mem l hl')
    simp only [importLines, hp, importRecord_skip hc, List.length_cons]
    rw [ih (n + 1) hrest]
    have harith : n + 1 + ls.length = n + (ls.length + 1) := by omega
    rw [harith]

/-- C7: import is idempotent without clear — if importing a dataset from
state `st` succeeds with final state `st₁` and row count `n`, importing the
same dataset again from `st₁` succeeds, reports the same count, and leaves
the state exactly `st₁`. -/
theorem import_idempotent (lines : List String) (st st₁ : Store) (n : ℕ)
    (h : importLines lines st 0 = .ok (st₁, n)) :
    importLines lines st₁ 0 = .ok (st₁, n) := by
  obtain ⟨hn, hall⟩ := importLines_ok_shape h
  rw [importLines_replay lines st₁ 0 hall, hn]

/-- Witness for C7: re-importing the two-record dataset of the spec's §8
example onto its own result changes nothing. -/
theorem import_idempotent_witness :
    importLines ["/x/y|5|100", "/x/y|2|50"] [⟨"/x/y", 5, 100⟩] 0
      = .ok ([⟨"/x/y", 5, 100⟩], 2) :=
  import_idempotent ["/x/y|5|100", "/x/y|2|50"] [] [⟨"/x/y", 5, 100⟩] 2 rfl

/-! ## Claim C8: rank non-negativity -/

lemma upsertVisit_nonneg {st : Store} (h : ∀ e ∈ st, 0 ≤ e.rank)
    (path : String) (now : ℤ) : ∀ e ∈ upsertVisit st path now, 0 ≤ e.rank := by
  intro e he
  simp only [upsertVisit] at he
  split at he
  · obtain ⟨a, ha, rfl⟩ := List.mem_map.mp he
    split
    · show 0 ≤ a.rank + 1
      have := h a ha
      linarith
    · exact h a ha
  · rcases List.mem_append.mp he with hmem | hmem
    · exact h e hmem
    · simp only [List.mem_singleton] at hmem
      subst hmem
      norm_num

lemma agingPass_nonneg {st : Store} (h : ∀ e ∈ st, 0 ≤ e.rank) :
    ∀ e ∈ agingPass st, 0 ≤ e.rank := by
  intro e he
  simp only [agingPass] at he
  split at he
  · obtain ⟨a, ha, rfl⟩ := List.mem_map.mp he
    have := h a ha
    show 0 ≤ a.rank * 0.99
    positivity
  · exact h e he

lemma importRecord_nonneg {st : Store} (h : ∀ e ∈ st, 0 ≤ e.rank)
    {r : ℚ} (hr : 0 ≤ r) (p : String) (t : ℤ) :
    ∀ e ∈ importRecord st p r t, 0 ≤ e.rank := by
  intro e he
  simp only [importRecord] at he
  split at he
  · obtain ⟨a, ha, rfl⟩ := List.mem_map.mp he
    split
    · exact hr
    · exact h a ha
  · rcases List.mem_append.mp he with hmem | hmem
    · exact h e hmem
    · simp only [List.mem_singleton] at hmem
      subst hmem
      exact hr

lemma importLines_nonneg {lines : List String} {st st' : Store} {n n' : ℕ}
    (h : importLines lines st n = .ok (st', n'))
    (hlines : ∀ l ∈ lines, ∀ p r t, parseLine l = .ok (p, r, t) → 0 ≤ r)
    (hst : ∀ e ∈ st, 0 ≤ e.rank) : ∀ e ∈ st', 0 ≤ e.rank := by
  induction lines generalizing st n with
  | nil =>
    simp only [importLines, Except.ok.injEq, Prod.mk.injEq] at h
    exact h.1 ▸ hst
  | cons l ls ih =>
    cases hp : parseLine l with
    | error e => simp [importLines, hp] at h
    | ok v =>
      obtain ⟨p, r, t⟩ := v
      simp only [importLines, hp] at h
      have hr : 0 ≤ r := hlines l (List.mem_cons_self l ls) p r t hp
      exact ih h (fun l' hl' => hlines l' (List.mem_cons_of_mem l hl'))
        (importRecord_nonneg hst hr p t)

/-- C8 counterexample: the state holding the single entry with path `/a`,
rank `-1` and time `10` is reachable (by importing the well-formed line
`/a|-1|10` into the empty store), yet its rank is negative — the claim that
every reachable entry has a non-negative rank is false, because the importer
stores parsed ranks verbatim without validation. -/
theorem rank_nonneg_counterexample :
    Reachable [⟨"/a", -1, 10⟩] ∧ (⟨"/a", -1, 10⟩ : Entry).rank < 0 :=
  ⟨Reachable.imp [] [⟨"/a", -1, 10⟩] ["/a|-1|10"] 1 rfl Reachable.init, by norm_num⟩

/-- C8 amended: every entry's rank is non-negative in every state reachable
by `record_visit` and by imports whose records all carry non-negative ranks
(visits add 1.0, the aging pass multiplies by 0.99, and an import overwrite
installs the incoming — here non-negative — rank). -/
theorem rank_nonneg_of_reachable_nn (st : Store) (h : ReachableNN st) :
    ∀ e ∈ st, 0 ≤ e.rank := by
  induction h with
  | init => simp
  | visit st p now _ ih =>
    simp only [recordVisit]
    exact agingPass_nonneg (upsertVisit_nonneg ih p now)
  | imp st st' lines n hnn himp _ ih =>
    exact importLines_nonneg himp hnn ih

/-- Witness for C8's amended theorem: the store reached by importing the
non-negative record `/a/b|1|0` has a non-negative rank. -/
theorem rank_nonneg_of_reachable_nn_witness :
    (0 : ℚ) ≤ (⟨"/a/b", 1, 0⟩ : Entry).rank := by
  have hr : ReachableNN [⟨"/a/b", 1, 0⟩] := by
    refine ReachableNN.imp [] _ ["/a/b|1|0"] 1 ?_ rfl ReachableNN.init
    intro l hl p r t hparse
    simp only [List.mem_singleton] at hl
    subst hl
    cases hparse
    norm_num
  exact rank_nonneg_of_reachable_nn _ hr ⟨"/a/b", 1, 0⟩ (by simp)

/-! ## Claim C9: home/root filtering -/

/-- C9 counterexample: the engine does filter inside the `Add` handler — for
the canonicalized path equal to the home directory, `addCommand` returns the
store untouched instead of performing the `record_visit` upsert the claim
requires. -/
theorem no_home_filter_counterexample :
    addCommand "/home/user" [] "/home/user" 0 = [] ∧
    addCommand "/home/user" [] "/home/user" 0 ≠ recordVisit [] "/home/user" 0 ∧
    recordVisit [] "/home/user" 0 = [⟨"/home/user", 1, 0⟩] := by
  have hrec : recordVisit [] "/home/user" 0 = [⟨"/home/user", 1, 0⟩] := by
    have hup : upsertVisit [] "/home/user" 0 = [⟨"/home/user", 1, 0⟩] := rfl
    simp only [recordVisit, hup, agingPass, totalRank, List.map_cons, List.map_nil,
      List.sum_cons, List.sum_nil, ge_iff_le]
    rw [if_neg (by norm_num)]
  have hadd : addCommand "/home/user" [] "/home/user" 0 = [] := rfl
  refine ⟨hadd, ?_, hrec⟩
  rw [hadd, hrec]
  simp

/-- C9 amended: the `Add` handler itself skips the store mutation exactly
when the canonicalized path equals the home directory or is a single
component (the filesystem root); for every other path it performs
`record_visit`.  The filtering lives in the engine, not in the caller. -/
theorem add_filters_home_and_root (home path : String) (now : ℤ) (st : Store) :
    ((path = home ∨ componentsCount path = 1) → addCommand home st path now = st) ∧
    (path ≠ home → componentsCount path ≠ 1 →
      addCommand home st path now = recordVisit st path now) := by
  constructor
  · intro h
    rcases h with h | h
    · simp [addCommand, h]
    · simp [addCommand, h]
  · intro h1 h2
    have hb1 : (path == home) = false := by simp [h1]
    have hb2 : (componentsCount path == 1) = false := by simp [h2]
    simp [addCommand, hb1, hb2]

/-- Witness for C9's amended theorem: the home path is skipped, an ordinary
two-component path is recorded. -/
theorem add_filters_home_and_root_witness :
    addCommand "/h" [] "/h" 3 = [] ∧
    addCommand "/h" [] "/a/b" 3 = recordVisit [] "/a/b" 3 :=
  ⟨(add_filters_home_and_root "/h" "/h" 3 []).1 (Or.inl rfl),
    (add_filters_home_and_root "/h" "/a/b" 3 []).2 (by decide) (by decide)⟩

/-! ## Claim C4: the Find matcher -/

lemma likeM_nil (s : List Char) : likeM [] s = s.isEmpty := by
  rw [likeM]

lemma likeM_percent_nil (ps : List Char) : likeM ('%' :: ps) [] = likeM ps [] := by
  rw [likeM]
  simp

lemma likeM_percent_cons (ps : List Char) (c : Char) (s' : List Char) :
    likeM ('%' :: ps) (c :: s') = (likeM ps (c :: s') || likeM ('%' :: ps) s') := by
  rw [likeM]
  simp

lemma likeM_lit_nil (c : Char) (ps : List Char) (h : c ≠ '%') :
    likeM (c :: ps) [] = false := by
  rw [likeM]
  simp [h]

lemma likeM_lit_cons (c : Char) (ps : List Char) (d : Char) (s' : List Char)
    (h : c ≠ '%') :
    likeM (c :: ps) (d :: s') = ((c == '_' || c == d) && likeM ps s') := by
  rw [likeM]
  simp [h]

/-- A pattern starting with `%` matches iff some split of the string lets the
rest of the pattern match the suffix (here only the forward direction). -/
lemma likeM_percent_split {ps s : List Char} (h : likeM ('%' :: ps) s = true) :
    ∃ a b, s = a ++ b ∧ likeM ps b = true := by
  induction s with
  | nil =>
    rw [likeM_percent_nil] at h
    exact ⟨[], [], rfl, h⟩
  | cons c s' ih =>
    rw [likeM_percent_cons] at h
    simp only [Bool.or_eq_true] at h
    rcases h with h1 | h2
    · exact ⟨[], c :: s', rfl, h1⟩
    · obtain ⟨a, b, rfl, hb⟩ := ih h2
      exact ⟨c :: a, b, rfl, hb⟩

/-- A wildcard-free literal prefix of a pattern must be matched verbatim. -/
lemma likeM_literal_split {t q s : List Char} (hp : '%' ∉ t) (hu : '_' ∉ t)
    (h : likeM (t ++ q) s = true) : ∃ s', s = t ++ s' ∧ likeM q s' = true := by
  induction t generalizing s with
  | nil => exact ⟨s, rfl, h⟩
  | cons c t' ih =>
    have hcp : c ≠ '%' := fun hh => hp (hh ▸ List.mem_cons_self _ _)
    have hcu : c ≠ '_' := fun hh => hu (hh ▸ List.mem_cons_self _ _)
    cases s with
    | nil =>
      rw [List.cons_append, likeM_lit_nil _ _ hcp] at h
      exact absurd h (by simp)
    | cons d s' =>
      rw [List.cons_append, likeM_lit_cons _ _ _ _ hcp] at h
      simp only [Bool.and_eq_true, Bool.or_eq_true] at h
      obtain ⟨hor, hrest⟩ := h
      have hcd : c = d := by
        rcases hor with h1 | h1
        · exact absurd (by simpa using h1) hcu
        · simpa using h1
      subst hcd
      obtain ⟨s'', rfl, hq⟩ :=
        ih (fun hh => hp (List.mem_cons_of_mem _ hh))
           (fun hh => hu (List.mem_cons_of_mem _ hh)) hrest
      exact ⟨s'', rfl, hq⟩

/-- For wildcard-free tokens, a `LIKE` match against `%t1%...%tn%` yields the
tokens in order as substrings. -/
lemma containsInOrder_of_likeM_patAux :
    ∀ (toks : List (List Char)) (s : List Char),
    (∀ t ∈ toks, '%' ∉ t ∧ '_' ∉ t) →
    likeM (patAux toks) s = true → ContainsInOrder toks s := by
  intro toks
  induction toks with
  | nil =>
    intro s _ _
    exact trivial
  | cons t ts ih =>
    intro s hw h
    rw [show patAux (t :: ts) = '%' :: (t ++ patAux ts) from rfl] at h
    obtain ⟨a, b, rfl, hb⟩ := likeM_percent_split h
    obtain ⟨ht1, ht2⟩ := hw t (List.mem_cons_self t ts)
    obtain ⟨s', rfl, hq⟩ := likeM_literal_split ht1 ht2 hb
    exact ⟨a, s', by simp [List.append_assoc],
      ih s' (fun u hu => hw u (List.mem_cons_of_mem _ hu)) hq⟩

lemma foldl_pat_append (ts : List String) (acc : List Char) :
    ts.foldl (fun pat p => pat ++ ('%' :: (lowercase p).data)) acc
      = acc ++ ts.foldl (fun pat p => pat ++ ('%' :: (lowercase p).data)) [] := by
  induction ts generalizing acc with
  | nil => simp
  | cons t ts ih =>
    simp only [List.foldl_cons, List.nil_append]
    rw [ih (acc ++ ('%' :: (lowercase t).data)), ih ('%' :: (lowercase t).data)]
    simp [List.append_assoc]

lemma buildPattern_eq_patAux (tokens : List String) :
    buildPattern tokens = patAux (tokens.map (fun t => (lowercase t).data)) := by
  induction tokens with
  | nil => rfl
  | cons t ts ih =>
    show (List.foldl _ ([] ++ ('%' :: (lowercase t).data)) ts) ++ ['%'] = _
    rw [List.nil_append, foldl_pat_append ts ('%' :: (lowercase t).data)]
    simp only [List.map_cons, patAux, List.cons_append, List.append_assoc]
    rw [← ih]
    rfl

lemma foldl_betterOf_mem (now : ℤ) (e : Entry) (es : List Entry) :
    es.foldl (betterOf now) e ∈ e :: es := by
  induction es generalizing e with
  | nil => simp
  | cons a es ih =>
    simp only [List.foldl_cons]
    have hstep := ih (betterOf now e a)
    have hba : betterOf now e a = e ∨ betterOf now e a = a := by
      unfold betterOf
      split
      · exact Or.inr rfl
      · exact Or.inl rfl
    rcases List.mem_cons.mp hstep with h | h
    · rw [h]
      rcases hba with h' | h' <;> simp [h']
    · simp [h]

/-- C4 counterexample: the token `"_"` is a `LIKE` single-character wildcard,
so `find_best` on the store holding only `"/a"` returns `"/a"`, even though
the lowercased `"/a"` does not contain the token `"_"` as a substring — the
claim as stated is false for tokens containing `LIKE` metacharacters. -/
theorem find_best_substring_counterexample :
    findBest [⟨"/a", 1, 0⟩] ["_"] 0 = some "/a" ∧
    ¬ ContainsInOrder (["_"].map (fun t => (lowercase t).data))
        (lowercase "/a").data := by
  constructor
  · have hlike : likeM (buildPattern ["_"]) (lowercase "/a").data = true := by
      have hbp : buildPattern ["_"] = ['%', '_', '%'] := rfl
      have hlc : (lowercase "/a").data = ['/', 'a'] := rfl
      rw [hbp, hlc]
      simp [likeM_percent_cons, likeM_percent_nil, likeM_nil, likeM_lit_cons]
    simp [findBest, hlike]
  · intro h
    have hform : (["_"].map (fun t => (lowercase t).data)) = [['_']] := rfl
    have hlc : (lowercase "/a").data = ['/', 'a'] := rfl
    rw [hform, hlc] at h
    obtain ⟨pre, suf, heq, -⟩ := h
    have hmem : ('_' : Char) ∈ pre ++ ['_'] ++ suf := by simp
    rw [← heq] at hmem
    simp at hmem

/-- C4 amended: provided no query token contains the `LIKE` metacharacters
`%` or `_`, `find_best` never returns a path whose lowercased form does not
contain all (lowercased) query tokens in order as substrings; it returns "no
match" when the token list is empty or when no stored row matches the
pattern, and any returned path is a stored path. -/
theorem find_best_tokens_in_order (tokens : List String) (st : Store) (now : ℤ) :
    findBest st [] now = none ∧
    ((∀ e ∈ st, likeM (buildPattern tokens) (lowercase e.path).data = false) →
      findBest st tokens now = none) ∧
    (∀ p, (∀ t ∈ tokens, '%' ∉ (lowercase t).data ∧ '_' ∉ (lowercase t).data) →
      findBest st tokens now = some p →
      (∃ e ∈ st, e.path = p) ∧
      ContainsInOrder (tokens.map (fun t => (lowercase t).data))
        (lowercase p).data) := by
  refine ⟨rfl, ?_, ?_⟩
  · intro h
    unfold findBest
    split
    · rfl
    · have hfil :
          st.filter (fun e => likeM (buildPattern tokens) (lowercase e.path).data)
            = [] :=
        List.filter_eq_nil_iff.mpr (fun e he => by simp [h e he])
      rw [hfil]
  · intro p hw hfind
    unfold findBest at hfind
    split at hfind
    · exact absurd hfind (by simp)
    · rename_i hne
      cases hfil :
          st.filter (fun e => likeM (buildPattern tokens) (lowercase e.path).data) with
      | nil =>
        rw [hfil] at hfind
        exact absurd hfind (by simp)
      | cons e es =>
        rw [hfil] at hfind
        have hbm := foldl_betterOf_mem now e es
        have hbmem : es.foldl (betterOf now) e
            ∈ st.filter (fun e => likeM (buildPattern tokens) (lowercase e.path).data) := by
          rw [hfil]
          exact hbm
        obtain ⟨hmem', hmatch'⟩ := List.mem_filter.mp hbmem
        have hmatch : likeM (buildPattern tokens)
            (lowercase (es.foldl (betterOf now) e).path).data = true := by
          simpa using hmatch'
        have hp : (es.foldl (betterOf now) e).path = p := by
          simpa using hfind
        refine ⟨⟨es.foldl (betterOf now) e, hmem', hp⟩, ?_⟩
        rw [← hp]
        rw [buildPattern_eq_patAux] at hmatch
        refine containsInOrder_of_likeM_patAux _ _ ?_ hmatch
        intro u hu
        obtain ⟨t, ht, rfl⟩ := List.mem_map.mp hu
        exact hw t ht

/-- Witness for C4's amended theorem: a wildcard-free token query on a
singleton store returns the stored path, which contains the token. -/
theorem find_best_tokens_in_order_witness :
    findBest [⟨"/a/b", 3, 0⟩] ["b"] 0 = some "/a/b" ∧
    ContainsInOrder (["b"].map (fun t => (lowercase t).data))
        (lowercase "/a/b").data := by
  have hlike : likeM (buildPattern ["b"]) (lowercase "/a/b").data = true := by
    have hbp : buildPattern ["b"] = ['%', 'b', '%'] := rfl
    have hlc : (lowercase "/a/b").data = ['/', 'a', '/', 'b'] := rfl
    rw [hbp, hlc]
    simp [likeM_percent_cons, likeM_percent_nil, likeM_nil, likeM_lit_cons]
  have hfind : findBest [⟨"/a/b", 3, 0⟩] ["b"] 0 = some "/a/b" := by
    simp [findBest, hlike]
  refine ⟨hfind, ?_⟩
  exact ((find_best_tokens_in_order ["b"] [⟨"/a/b", 3, 0⟩] 0).2.2 "/a/b"
    (by decide) hfind).2

end Zipzap
